import Mathlib

set_option maxHeartbeats 1000000

namespace GngramCounter

/-- Frequency statistics for a word, mirroring the FrequencyData TypedDict of
src/gngram_counter/lookup.py. -/
structure FrequencyData where
  peak_tf : Int
  peak_df : Int
  sum_tf : Int
  sum_df : Int
deriving DecidableEq

/-- One row of a shard (parquet bucket) table: the hash-suffix key column
plus the four statistics columns. -/
structure Row where
  hash : String
  peak_tf : Int
  peak_df : Int
  sum_tf : Int
  sum_df : Int
deriving DecidableEq

/-- Errors raised by the lookup entry points. In the source both conditions
surface as FileNotFoundError; dataNotInstalled is the explicitly raised one
(with an install-instructions message), fileNotFound is the one propagating
from reading a missing bucket file. -/
inductive LookupError where
  | dataNotInstalled : LookupError
  | fileNotFound : String → LookupError
deriving DecidableEq

/-- Modelled from the spec: the external collaborators of lookup.py that are
not part of this repository slice (gngram_counter.data and
gngram_counter.normalize): the installation flag is_data_installed, the pure
normalize function, the md5 hex digest of a UTF-8 string, and the backing
storage of parquet bucket files keyed by hash prefix, where none models a
bucket file missing on disk (FileNotFoundError on read). -/
structure Env where
  dataInstalled : Bool
  normalize : String → String
  md5hex : String → String
  buckets : String → Option (List Row)

/-- The apostrophe character, via its code point. -/
def apos : Char := Char.ofNat 39

/-- The contraction suffix token spelled n-apostrophe-t. -/
def suffixNT : String := ⟨['n', apos, 't']⟩

/-- The contraction suffix token spelled apostrophe-l-l. -/
def suffixLL : String := ⟨[apos, 'l', 'l']⟩

/-- The contraction suffix token spelled apostrophe-r-e. -/
def suffixRE : String := ⟨[apos, 'r', 'e']⟩

/-- The contraction suffix token spelled apostrophe-v-e. -/
def suffixVE : String := ⟨[apos, 'v', 'e']⟩

/-- The contraction suffix token spelled apostrophe-m. -/
def suffixM : String := ⟨[apos, 'm']⟩

/-- The contraction suffix token spelled apostrophe-d. -/
def suffixD : String := ⟨[apos, 'd']⟩

/-- The possessive/contraction suffix token spelled apostrophe-s. -/
def suffixS : String := ⟨[apos, 's']⟩

/-- CONTRACTION_SUFFIXES from lookup.py, in source order. -/
def CONTRACTION_SUFFIXES : List String :=
  [suffixNT, suffixLL, suffixRE, suffixVE, suffixM, suffixD]

/-- Python str.endswith over the characters of the word: true exactly when
the last characters of the word are the suffix (false whenever the suffix
is longer than the word, since then the compared lists have different
lengths). -/
def strEndsWith (w sfx : String) : Bool :=
  decide (w.data.drop (w.data.length - sfx.data.length) = sfx.data)

/-- The body of _hash_word: md5 hex digest of the normalized word, split
into the first two characters and the remainder. -/
def hash_word (env : Env) (word : String) : String × String :=
  let h := env.md5hex (env.normalize word)
  (h.take 2, h.drop 2)

/-- The body of _lookup_frequency: direct single-word lookup, no fallbacks.
The empty word short-circuits to none; a missing bucket file
(FileNotFoundError from _load_bucket) is caught and yields none; otherwise
the bucket is filtered on the hash column and the first matching row, if
any, supplies the four statistics. -/
def lookup_frequency (env : Env) (word : String) : Option FrequencyData :=
  if word = "" then none
  else
    match env.buckets (hash_word env word).1 with
    | none => none
    | some df =>
      match df.filter (fun r => decide (r.hash = (hash_word env word).2)) with
      | [] => none
      | r :: _ => some ⟨r.peak_tf, r.peak_df, r.sum_tf, r.sum_df⟩

/-- The for-loop of _split_contraction over CONTRACTION_SUFFIXES: a suffix
that matches the word but leaves an empty stem does not return; the loop
continues. -/
def splitContractionLoop (word : String) : List String → Option (String × String)
  | [] => none
  | sfx :: rest =>
    if strEndsWith word sfx then
      let stem := word.dropRight sfx.length
      if stem = "" then splitContractionLoop word rest
      else some (stem, sfx)
    else splitContractionLoop word rest

/-- The body of _split_contraction: the loop over CONTRACTION_SUFFIXES, then
the separate apostrophe-s check covering contractions and possessives. -/
def split_contraction (word : String) : Option (String × String) :=
  match splitContractionLoop word CONTRACTION_SUFFIXES with
  | some r => some r
  | none =>
    if strEndsWith word suffixS then
      let stem := word.dropRight 2
      if stem = "" then none else some (stem, suffixS)
    else none

/-- Python str.split on a single-character separator, here the hyphen:
"a-b" gives ["a","b"], "" gives [""], "a--b" gives ["a","","b"]. -/
def splitDash : List Char → List (List Char)
  | [] => [[]]
  | c :: cs =>
    if c = '-' then [] :: splitDash cs
    else
      match splitDash cs with
      | [] => [[c]]
      | p :: ps => (c :: p) :: ps

/-- The list comprehension of _split_hyphenated: split on the hyphen and
keep the non-empty parts. -/
def hyphenParts (word : String) : List String :=
  ((splitDash word.data).map (fun l => (⟨l⟩ : String))).filter
    (fun p => decide (¬ p = ""))

/-- The body of _split_hyphenated: none when the word has no hyphen or when
fewer than two non-empty parts remain, otherwise the non-empty parts. -/
def split_hyphenated (word : String) : Option (List String) :=
  if '-' ∈ word.data then
    let parts := hyphenParts word
    if parts.length < 2 then none else some parts
  else none

/-- The fallback chain of exists from lookup.py, applied to the normalized
word: direct lookup, then the contraction/possessive stem, then the
all-parts hyphen gate. Its boolean is what exists returns once the
installed check has passed (past that check the source returns normally on
every path). -/
def existsValue (env : Env) (n : String) : Bool :=
  if (lookup_frequency env n).isSome then true
  else
    let contractionHit :=
      match split_contraction n with
      | some (stem, _) => (lookup_frequency env stem).isSome
      | none => false
    if contractionHit then true
    else
      match split_hyphenated n with
      | some parts => parts.all (fun p => (lookup_frequency env p).isSome)
      | none => false

/-- The body of exists from lookup.py: the installed check raises, then the
word is normalized and the fallback chain decides. -/
def «exists» (env : Env) (word : String) : Except LookupError Bool :=
  if ¬ env.dataInstalled then .error .dataNotInstalled
  else .ok (existsValue env (env.normalize word))

/-- The fallback chain of frequency from lookup.py, applied to the
normalized word: direct record, else the contraction/possessive stem's
record, else — when every hyphen part resolves — the first part's record,
else none. Its value is what frequency returns once the installed check has
passed. -/
def freqValue (env : Env) (n : String) : Option FrequencyData :=
  match lookup_frequency env n with
  | some r => some r
  | none =>
    let stemFreq :=
      match split_contraction n with
      | some (stem, _) => lookup_frequency env stem
      | none => none
    match stemFreq with
    | some r => some r
    | none =>
      match split_hyphenated n with
      | some parts =>
        if parts.all (fun p => (lookup_frequency env p).isSome)
        then lookup_frequency env parts.headI
        else none
      | none => none

/-- The body of frequency from lookup.py: the installed check raises, then
the word is normalized and the fallback chain supplies the result. -/
def frequency (env : Env) (word : String) : Except LookupError (Option FrequencyData) :=
  if ¬ env.dataInstalled then .error .dataNotInstalled
  else .ok (freqValue env (env.normalize word))

/-- Conversion of a matched bucket row into the returned statistics. -/
def rowToFreq (r : Row) : FrequencyData :=
  ⟨r.peak_tf, r.peak_df, r.sum_tf, r.sum_df⟩

/-- A Python dict with string keys, as a partial map updated pointwise. -/
def dictInsert (d : String → Option (Option FrequencyData)) (k : String)
    (v : Option FrequencyData) : String → Option (Option FrequencyData) :=
  fun x => if x = k then some v else d x

/-- Appending one entry to by_prefix[k] in batch_frequency: insertion-order
association list, appending to an existing key's list or adding the key. -/
def assocAppend (m : List (String × List (String × String × String)))
    (k : String) (e : String × String × String) :
    List (String × List (String × String × String)) :=
  match m with
  | [] => [(k, [e])]
  | (k₂, es) :: rest =>
    if k = k₂ then (k₂, es ++ [e]) :: rest
    else (k₂, es) :: assocAppend rest k e

/-- The grouping loop of batch_frequency: each word, in order, contributes
the entry (word, normalized, hash suffix) to the group of its hash
prefix in the accumulated mapping. -/
def groupWords (env : Env) :
    List String → List (String × List (String × String × String)) →
    List (String × List (String × String × String))
  | [], m => m
  | word :: rest, m =>
    let n := env.normalize word
    let hs := hash_word env n
    groupWords env rest (assocAppend m hs.1 (word, n, hs.2))

/-- The by_prefix dict of batch_frequency, built from the empty mapping. -/
def groupMap (env : Env) (words : List String) :
    List (String × List (String × String × String)) :=
  groupWords env words []

/-- The dict comprehension building match_dict in batch_frequency: iterate
the matching rows and keep, per hash value, the last row seen. -/
def matchDict (m : List Row) (s : String) : Option Row :=
  m.foldl (fun acc r => if r.hash = s then some r else acc) none

/-- The inner per-entry loop of the direct phase of batch_frequency: record
the matched row's statistics, or record none and queue the word for the
fallback pass. -/
def processEntries (matchRows : List Row) :
    List (String × String × String) →
    (String → Option (Option FrequencyData)) × List String →
    (String → Option (Option FrequencyData)) × List String
  | [], acc => acc
  | e :: rest, acc =>
    match matchDict matchRows e.2.2 with
    | some r =>
      processEntries matchRows rest (dictInsert acc.1 e.1 (some (rowToFreq r)), acc.2)
    | none =>
      processEntries matchRows rest (dictInsert acc.1 e.1 none, acc.2 ++ [e.1])

/-- The per-prefix loop of the direct phase of batch_frequency. The bucket
load here is not wrapped in try/except: a missing bucket file propagates as
an error. -/
def directPhase (env : Env) :
    List (String × List (String × String × String)) →
    (String → Option (Option FrequencyData)) × List String →
    Except LookupError ((String → Option (Option FrequencyData)) × List String)
  | [], acc => .ok acc
  | (pfx, entries) :: rest, acc =>
    match env.buckets pfx with
    | none => .error (.fileNotFound pfx)
    | some df =>
      let sfxs := entries.map (fun e => e.2.2)
      let matchRows := df.filter (fun r => decide (r.hash ∈ sfxs))
      directPhase env rest (processEntries matchRows entries acc)

/-- The hyphen half of the fallback loop body of batch_frequency: some v
means results[word] is assigned v, none means the word's entry is left
untouched. -/
def fallbackHyphen (env : Env) (n : String) : Option (Option FrequencyData) :=
  match split_hyphenated n with
  | some parts =>
    if parts.all (fun p => (lookup_frequency env p).isSome)
    then some (lookup_frequency env parts.headI)
    else none
  | none => none

/-- The fallback loop body of batch_frequency for one word: the contraction
stem, if it resolves, wins and continues the loop; otherwise the hyphen
branch may assign; otherwise nothing is written. -/
def fallbackValue (env : Env) (word : String) : Option (Option FrequencyData) :=
  let n := env.normalize word
  match split_contraction n with
  | some (stem, _) =>
    match lookup_frequency env stem with
    | some r => some (some r)
    | none => fallbackHyphen env n
  | none => fallbackHyphen env n

/-- The fallback pass of batch_frequency over the queued words, in order. -/
def fallbackPhase (env : Env) :
    List String → (String → Option (Option FrequencyData)) →
    String → Option (Option FrequencyData)
  | [], results => results
  | word :: rest, results =>
    match fallbackValue env word with
    | some v => fallbackPhase env rest (dictInsert results word v)
    | none => fallbackPhase env rest results

/-- The body of batch_frequency from lookup.py: installed check, grouping by
hash prefix, the direct phase (one bucket load and one grouped filter per
prefix), then the per-word fallback pass. -/
def batch_frequency (env : Env) (words : List String) :
    Except LookupError (String → Option (Option FrequencyData)) :=
  if ¬ env.dataInstalled then .error .dataNotInstalled
  else
    match directPhase env (groupMap env words) (fun _ => none, []) with
    | .error e => .error e
    | .ok (results, fb) => .ok (fallbackPhase env fb results)

/-- Reading one word's value out of a batch_frequency result: some v when
the call succeeded and the word is a key with value v. -/
def batchLookup (env : Env) (words : List String) (w : String) :
    Option (Option FrequencyData) :=
  match batch_frequency env words with
  | .ok m => m w
  | .error _ => none

/-- Collapsing a single-word entry-point result to its ok value. -/
def okValue (x : Except LookupError (Option FrequencyData)) :
    Option (Option FrequencyData) :=
  match x with
  | .ok v => some v
  | .error _ => none

/-- Shard rows for the concrete test environment: direct corpus entries for
a few plain words, keyed by their hash suffix (under the toy digest below
the suffix is the word itself). -/
def testRows : List Row :=
  [⟨"quarter", 1, 2, 30, 40⟩,
   ⟨"deck", 3, 4, 50, 60⟩,
   ⟨"ship", 5, 6, 70, 80⟩,
   ⟨"do", 7, 8, 90, 100⟩,
   ⟨"a", 9, 10, 110, 120⟩]

/-- A concrete environment: data installed, identity normalization, a toy
digest prepending XX (every word lands in the single bucket XX with the
word itself as row key), and that one bucket present on storage. -/
def testEnv : Env :=
  ⟨true, fun s => s, fun s => "XX" ++ s,
   fun p => if p = "XX" then some testRows else none⟩

/-- A concrete environment whose backing storage holds no bucket files at
all (every shard read raises FileNotFoundError), data still installed. -/
def envNoBuckets : Env :=
  ⟨true, fun s => s, fun s => "XX" ++ s, fun _ => none⟩

/-- The test environment with the corpus not installed. -/
def envOff : Env :=
  ⟨false, fun s => s, fun s => "XX" ++ s,
   fun p => if p = "XX" then some testRows else none⟩

/-- The word spelled d-o-n-apostrophe-t. -/
def wordDont : String := ⟨['d', 'o', 'n', apos, 't']⟩

/-- The word spelled d-o-n-apostrophe-t-apostrophe-s. -/
def wordDonts : String := ⟨['d', 'o', 'n', apos, 't', apos, 's']⟩

/-- The word spelled x-hyphen-d-o-n-apostrophe-t. -/
def wordXDont : String := ⟨['x', '-', 'd', 'o', 'n', apos, 't']⟩

lemma exists_ok (env : Env) (w : String) (hinst : env.dataInstalled = true) :
    «exists» env w = .ok (existsValue env (env.normalize w)) := by
  unfold «exists»
  simp [hinst]

lemma frequency_ok (env : Env) (w : String) (hinst : env.dataInstalled = true) :
    frequency env w = .ok (freqValue env (env.normalize w)) := by
  unfold frequency
  simp [hinst]

lemma lookup_frequency_bucket_none (env : Env) (n : String)
    (h : env.buckets (hash_word env n).1 = none) :
    lookup_frequency env n = none := by
  unfold lookup_frequency
  split
  · rfl
  · rw [h]

lemma split_hyphenated_length {w : String} {ps : List String}
    (h : split_hyphenated w = some ps) : 2 ≤ ps.length := by
  unfold split_hyphenated at h
  split at h
  · simp only at h
    split at h
    · exact absurd h (by simp)
    · injection h with h2
      subst h2
      omega
  · exact absurd h (by simp)

lemma headI_mem {l : List String} (h : l ≠ []) : l.headI ∈ l := by
  cases l with
  | nil => exact absurd rfl h
  | cons a t => simp [List.headI]

/-- C6: when the corpus is not installed, each entry point fails with the
DataNotInstalled condition. The statement quantifies over every environment
with the flag down, so the outcome is independent of the digest, the
normalizer and the backing storage: no hashing, lookup or shard access can
influence it, and the failure is an error, never an absence result. -/
theorem data_not_installed_first (env : Env) (w : String) (ws : List String)
    (h : env.dataInstalled = false) :
    «exists» env w = .error .dataNotInstalled ∧
    frequency env w = .error .dataNotInstalled ∧
    batch_frequency env ws = .error .dataNotInstalled := by
  refine ⟨?_, ?_, ?_⟩ <;> simp [«exists», frequency, batch_frequency, h]

theorem data_not_installed_first_witness :
    «exists» envOff "ship" = .error .dataNotInstalled ∧
    frequency envOff "ship" = .error .dataNotInstalled ∧
    batch_frequency envOff ["ship"] = .error .dataNotInstalled :=
  data_not_installed_first envOff "ship" ["ship"] rfl

/-- C2 counterexample: with the corpus installed but the bucket file for the
word's hash prefix missing on storage, batch_frequency raises the
FileNotFoundError coming from the unguarded bucket load of its direct
phase, instead of producing an absence result. -/
theorem missing_shard_batch_cex :
    batch_frequency envNoBuckets ["world"] = .error (.fileNotFound "XX") := rfl

/-- C2 amended: exists and frequency never raise once the corpus is
installed (a missing shard is caught and treated as no match in that
shard), and a word whose own shard is missing and which neither splits as a
contraction nor as a hyphenated compound yields false and none; but in
batch_frequency the direct-phase bucket load is not guarded, so there a
missing shard raises instead of yielding absence. -/
theorem missing_shard_absence_amended (env : Env) (w : String)
    (hinst : env.dataInstalled = true) :
    (∃ b, «exists» env w = .ok b) ∧
    (∃ v, frequency env w = .ok v) ∧
    (env.buckets (hash_word env (env.normalize w)).1 = none →
      split_contraction (env.normalize w) = none →
      split_hyphenated (env.normalize w) = none →
      «exists» env w = .ok false ∧ frequency env w = .ok none) := by
  refine ⟨⟨_, exists_ok env w hinst⟩, ⟨_, frequency_ok env w hinst⟩, ?_⟩
  intro h1 h2 h3
  have hl := lookup_frequency_bucket_none env (env.normalize w) h1
  rw [exists_ok env w hinst, frequency_ok env w hinst]
  constructor
  · unfold existsValue
    simp [hl, h2, h3]
  · unfold freqValue
    simp [hl, h2, h3]

theorem missing_shard_absence_witness :
    «exists» envNoBuckets "zz" = .ok false ∧
    frequency envNoBuckets "zz" = .ok none :=
  (missing_shard_absence_amended envNoBuckets "zz" rfl).2.2 rfl rfl rfl

/-- C5: with the corpus installed, when the direct lookup misses and the
contraction/possessive split produces a stem that resolves directly, exists
is true and frequency is exactly the stem's record. Nothing here constrains
the hyphen branch: the conclusion holds whatever the hyphen split or the
parts' shard contents would say, which is the short-circuit the claim
demands. -/
theorem contraction_fallback_precedence (env : Env) (w stem tok : String)
    (r : FrequencyData) (hinst : env.dataInstalled = true)
    (hdirect : lookup_frequency env (env.normalize w) = none)
    (hsplit : split_contraction (env.normalize w) = some (stem, tok))
    (hstem : lookup_frequency env stem = some r) :
    «exists» env w = .ok true ∧ frequency env w = .ok (some r) := by
  rw [exists_ok env w hinst, frequency_ok env w hinst]
  constructor
  · unfold existsValue
    simp [hdirect, hsplit, hstem]
  · unfold freqValue
    simp [hdirect, hsplit, hstem]

theorem contraction_fallback_precedence_witness :
    «exists» testEnv wordDont = .ok true ∧
    frequency testEnv wordDont = .ok (some ⟨7, 8, 90, 100⟩) :=
  contraction_fallback_precedence testEnv wordDont "do" suffixNT
    ⟨7, 8, 90, 100⟩ rfl rfl rfl rfl

/-- The full ordered token list of the Fallback Resolver contract: the six
CONTRACTION_SUFFIXES followed by the generic possessive/contraction token. -/
def contractionTokens : List String := CONTRACTION_SUFFIXES ++ [suffixS]

lemma splitContractionLoop_eq_find (w : String) (l : List String) :
    splitContractionLoop w l =
      (l.find? (fun t => strEndsWith w t && decide (¬ w.dropRight t.length = ""))).map
        (fun t => (w.dropRight t.length, t)) := by
  induction l with
  | nil => rfl
  | cons sfx rest ih =>
    unfold splitContractionLoop
    by_cases h1 : strEndsWith w sfx = true
    · by_cases h2 : w.dropRight sfx.length = ""
      · simp [List.find?, h1, h2, ih]
      · simp [List.find?, h1, h2]
    · simp [List.find?, h1, ih]

lemma splitContractionLoop_append (w : String) (l₁ l₂ : List String) :
    splitContractionLoop w (l₁ ++ l₂) =
      match splitContractionLoop w l₁ with
      | some r => some r
      | none => splitContractionLoop w l₂ := by
  induction l₁ with
  | nil => rfl
  | cons sfx rest ih =>
    by_cases h1 : strEndsWith w sfx = true
    · by_cases h2 : w.dropRight sfx.length = ""
      · simp [List.cons_append, splitContractionLoop, h1, h2, ih]
      · simp [List.cons_append, splitContractionLoop, h1, h2]
    · simp [List.cons_append, splitContractionLoop, h1, ih]

/-- C7: split_contraction tests the fixed token list in the order n-t, ll,
re, ve, m, d, then the possessive token, and returns the stripped stem with
the token for the first token the word ends with that leaves a non-empty
stem; when no token qualifies it returns none. As a Lean function it is
pure and performs no input/output by construction. -/
theorem split_contraction_contract (w : String) :
    split_contraction w =
      (contractionTokens.find?
        (fun t => strEndsWith w t && decide (¬ w.dropRight t.length = ""))).map
        (fun t => (w.dropRight t.length, t)) := by
  have h1 : split_contraction w = splitContractionLoop w (CONTRACTION_SUFFIXES ++ [suffixS]) := by
    rw [splitContractionLoop_append]
    unfold split_contraction
    rcases h : splitContractionLoop w CONTRACTION_SUFFIXES with _ | r <;> rfl
  rw [h1, splitContractionLoop_eq_find]
  rfl

lemma splitDash_no_dash (l : List Char) (h : '-' ∉ l) : splitDash l = [l] := by
  induction l with
  | nil => rfl
  | cons c cs ih =>
    have h1 : ¬ c = '-' := fun hc => h (List.mem_cons.mpr (Or.inl hc.symm))
    have h2 : '-' ∉ cs := fun hm => h (List.mem_cons_of_mem c hm)
    simp [splitDash, h1, ih h2]

/-- C8: split_hyphenated returns exactly the non-empty hyphen-split parts
when at least two of them exist, and none otherwise; the explicit
no-hyphen early return of the source is subsumed, because a word without a
hyphen yields at most one non-empty part. -/
theorem split_hyphenated_contract (w : String) :
    split_hyphenated w =
      if 2 ≤ (hyphenParts w).length then some (hyphenParts w) else none := by
  unfold split_hyphenated
  by_cases h : '-' ∈ w.data
  · simp only [h, if_true]
    by_cases h2 : (hyphenParts w).length < 2
    · rw [if_pos h2, if_neg (by omega)]
    · rw [if_neg h2, if_pos (by omega)]
  · rw [if_neg h]
    have hd : splitDash w.data = [w.data] := splitDash_no_dash _ h
    have hp : hyphenParts w = [(⟨w.data⟩ : String)].filter (fun p => decide (¬ p = "")) := by
      unfold hyphenParts
      rw [hd]
      rfl
    have h2 : (hyphenParts w).length ≤ 1 := by
      rw [hp]
      exact List.length_filter_le _ _
    rw [if_neg (by omega)]

lemma existsValue_hyphen (env : Env) (n : String) (parts : List String)
    (hd : lookup_frequency env n = none)
    (hc : ∀ stem tok, split_contraction n = some (stem, tok) →
      lookup_frequency env stem = none)
    (hs : split_hyphenated n = some parts) :
    existsValue env n = parts.all (fun p => (lookup_frequency env p).isSome) := by
  unfold existsValue
  rcases h2 : split_contraction n with _ | ⟨stem, tok⟩
  · simp [hd, hs]
  · simp [hd, hs, hc stem tok h2]

lemma freqValue_hyphen (env : Env) (n : String) (parts : List String)
    (hd : lookup_frequency env n = none)
    (hc : ∀ stem tok, split_contraction n = some (stem, tok) →
      lookup_frequency env stem = none)
    (hs : split_hyphenated n = some parts) :
    freqValue env n =
      (if parts.all (fun p => (lookup_frequency env p).isSome)
       then lookup_frequency env parts.headI else none) := by
  unfold freqValue
  rcases h2 : split_contraction n with _ | ⟨stem, tok⟩
  · simp [hd, hs]
  · simp [hd, hs, hc stem tok h2]

lemma hyphen_chain_iff (env : Env) (n : String) :
    (match split_hyphenated n with
     | some parts => parts.all (fun p => (lookup_frequency env p).isSome)
     | none => false) = true ↔
    ∃ r, (match split_hyphenated n with
     | some parts =>
       if parts.all (fun p => (lookup_frequency env p).isSome)
       then lookup_frequency env parts.headI
       else none
     | none => (none : Option FrequencyData)) = some r := by
  rcases h3 : split_hyphenated n with _ | parts
  · simp
  · by_cases h4 : parts.all (fun p => (lookup_frequency env p).isSome) = true
    · have hne : parts ≠ [] := by
        have hlen := split_hyphenated_length h3
        intro hh
        rw [hh] at hlen
        simp at hlen
      have hsome := (List.all_eq_true.mp h4) _ (headI_mem hne)
      rcases h5 : lookup_frequency env parts.headI with _ | r0
      · rw [h5] at hsome
        simp at hsome
      · simp [h4, h5]
    · simp [h4]

lemma existsValue_iff (env : Env) (n : String) :
    existsValue env n = true ↔ ∃ r, freqValue env n = some r := by
  unfold existsValue freqValue
  rcases h1 : lookup_frequency env n with _ | r
  · rcases h2 : split_contraction n with _ | ⟨stem, tok⟩
    · simpa using hyphen_chain_iff env n
    · simp only [h1, h2]
      by_cases h3 : (lookup_frequency env stem).isSome = true
      · rcases Option.isSome_iff_exists.mp h3 with ⟨r2, hr2⟩
        simp [hr2]
      · have h3n : lookup_frequency env stem = none :=
          Option.not_isSome_iff_eq_none.mp h3
        simpa [h3n] using hyphen_chain_iff env n
  · simp

/-- C3: with the corpus installed, exists is true exactly when frequency is
not absent; in particular both operations apply the same all-parts gate on
the hyphenated path, since the equivalence is unconditional in the word. -/
theorem exists_iff_frequency_some (env : Env) (w : String)
    (hinst : env.dataInstalled = true) :
    «exists» env w = .ok true ↔ ∃ r, frequency env w = .ok (some r) := by
  rw [exists_ok env w hinst, frequency_ok env w hinst]
  constructor
  · intro h
    injection h with h
    rcases (existsValue_iff env (env.normalize w)).mp h with ⟨r, hr⟩
    exact ⟨r, by rw [hr]⟩
  · rintro ⟨r, hr⟩
    injection hr with hr
    rw [(existsValue_iff env (env.normalize w)).mpr ⟨r, hr⟩]

theorem exists_iff_frequency_some_witness :
    «exists» testEnv "a-zzz" = .ok true ↔
      ∃ r, frequency testEnv "a-zzz" = .ok (some r) :=
  exists_iff_frequency_some testEnv "a-zzz" rfl

/-- C4: with the corpus installed, for a word with no direct match and no
resolving contraction stem whose hyphen split yields parts, exists is true
exactly when every part resolves directly, and when every part resolves,
frequency returns precisely the first part's record. -/
theorem hyphen_fallback_contract (env : Env) (w : String) (parts : List String)
    (hinst : env.dataInstalled = true)
    (hdirect : lookup_frequency env (env.normalize w) = none)
    (hcontr : ∀ stem tok, split_contraction (env.normalize w) = some (stem, tok) →
      lookup_frequency env stem = none)
    (hsplit : split_hyphenated (env.normalize w) = some parts) :
    («exists» env w = .ok true ↔ ∀ p ∈ parts, (lookup_frequency env p).isSome = true) ∧
    ((∀ p ∈ parts, (lookup_frequency env p).isSome = true) →
      ∃ r, lookup_frequency env parts.headI = some r ∧
        frequency env w = .ok (some r)) := by
  have he := existsValue_hyphen env (env.normalize w) parts hdirect hcontr hsplit
  have hf := freqValue_hyphen env (env.normalize w) parts hdirect hcontr hsplit
  constructor
  · rw [exists_ok env w hinst]
    constructor
    · intro h
      injection h with h
      rw [he] at h
      exact List.all_eq_true.mp h
    · intro h
      have hv : existsValue env (env.normalize w) = true := by
        rw [he]
        exact List.all_eq_true.mpr h
      rw [hv]
  · intro hall
    have h4 : parts.all (fun p => (lookup_frequency env p).isSome) = true :=
      List.all_eq_true.mpr hall
    have hne : parts ≠ [] := by
      have hlen := split_hyphenated_length hsplit
      intro hh
      rw [hh] at hlen
      simp at hlen
    have hsome := hall _ (headI_mem hne)
    rcases h5 : lookup_frequency env parts.headI with _ | r0
    · rw [h5] at hsome
      simp at hsome
    · refine ⟨r0, rfl, ?_⟩
      rw [frequency_ok env w hinst, hf, if_pos h4, h5]

theorem hyphen_fallback_contract_witness :
    frequency testEnv "quarter-deck" = .ok (some ⟨1, 2, 30, 40⟩) := by
  have hc0 : split_contraction (testEnv.normalize "quarter-deck") = none := rfl
  rcases (hyphen_fallback_contract testEnv "quarter-deck" ["quarter", "deck"] rfl rfl
      (fun stem tok h => Option.noConfusion (hc0.symm.trans h)) rfl).2
      (by decide) with ⟨r, hr, hfreq⟩
  have h0 : lookup_frequency testEnv (["quarter", "deck"] : List String).headI =
      some ⟨1, 2, 30, 40⟩ := rfl
  have h1 := h0.symm.trans hr
  injection h1 with h1
  rw [← h1] at hfreq
  exact hfreq

/-- C10: fallback resolution is one level deep. First part: a word whose
direct lookup misses, whose contraction stem misses directly, and whose
hyphen split is empty, is reported absent by exists and frequency even when
the stem would itself resolve as its own query via the fallback chain.
Second part: likewise for a hyphen part that misses directly but would
itself resolve as its own query. -/
theorem fallback_one_level_deep :
    (∀ (env : Env) (w stem tok : String),
      env.dataInstalled = true →
      lookup_frequency env (env.normalize w) = none →
      split_contraction (env.normalize w) = some (stem, tok) →
      lookup_frequency env stem = none →
      split_hyphenated (env.normalize w) = none →
      «exists» env stem = .ok true →
      «exists» env w = .ok false ∧ frequency env w = .ok none) ∧
    (∀ (env : Env) (w p : String) (parts : List String),
      env.dataInstalled = true →
      lookup_frequency env (env.normalize w) = none →
      (∀ stem tok, split_contraction (env.normalize w) = some (stem, tok) →
        lookup_frequency env stem = none) →
      split_hyphenated (env.normalize w) = some parts →
      p ∈ parts →
      lookup_frequency env p = none →
      «exists» env p = .ok true →
      «exists» env w = .ok false ∧ frequency env w = .ok none) := by
  constructor
  · intro env w stem tok hinst hd hsplit hstem hhyp hres
    rw [exists_ok env w hinst, frequency_ok env w hinst]
    constructor
    · unfold existsValue
      simp [hd, hsplit, hstem, hhyp]
    · unfold freqValue
      simp [hd, hsplit, hstem, hhyp]
  · intro env w p parts hinst hd hcontr hsplit hmem hp hres
    have hall : parts.all (fun q => (lookup_frequency env q).isSome) = false := by
      rcases hb : parts.all (fun q => (lookup_frequency env q).isSome) with _ | _
      · rfl
      · exfalso
        have hq := List.all_eq_true.mp hb _ hmem
        rw [hp] at hq
        simp at hq
    have he := existsValue_hyphen env (env.normalize w) parts hd hcontr hsplit
    have hf := freqValue_hyphen env (env.normalize w) parts hd hcontr hsplit
    rw [exists_ok env w hinst, frequency_ok env w hinst, he, hf, hall]
    simp

theorem fallback_one_level_deep_witness :
    («exists» testEnv wordDonts = .ok false ∧
      frequency testEnv wordDonts = .ok none) ∧
    («exists» testEnv wordXDont = .ok false ∧
      frequency testEnv wordXDont = .ok none) := by
  constructor
  · exact fallback_one_level_deep.1 testEnv wordDonts wordDont suffixS
      rfl rfl rfl rfl rfl rfl
  · have hc0 : split_contraction (testEnv.normalize wordXDont) =
        some ("x-do", suffixNT) := rfl
    refine fallback_one_level_deep.2 testEnv wordXDont wordDont ["x", wordDont]
      rfl rfl ?_ rfl (by simp) rfl rfl
    intro stem tok h
    have h2 := hc0.symm.trans h
    injection h2 with h2
    cases h2
    rfl

/-- The direct-lookup outcome used by both batch phases once the empty-word
guard is out of the way: the first matching row of the word's bucket, if
the bucket exists. -/
def directVal (env : Env) (n : String) : Option FrequencyData :=
  match env.buckets (hash_word env n).1 with
  | none => none
  | some df =>
    (df.find? (fun r => decide (r.hash = (hash_word env n).2))).map rowToFreq

lemma find_eq_filter_head {α : Type} (p : α → Bool) (l : List α) :
    l.find? p = (l.filter p).head? := by
  induction l with
  | nil => rfl
  | cons a t ih =>
    by_cases h : p a = true
    · rw [List.find?_cons_of_pos _ h, List.filter_cons_of_pos h]
      rfl
    · rw [List.find?_cons_of_neg _ (by simpa using h),
        List.filter_cons_of_neg (by simpa using h), ih]

lemma lookup_frequency_eq_directVal (env : Env) (n : String) (hne : ¬ n = "") :
    lookup_frequency env n = directVal env n := by
  unfold lookup_frequency directVal
  rw [if_neg hne]
  rcases env.buckets (hash_word env n).1 with _ | df
  · rfl
  · suffices h :
        (match df.filter (fun r => decide (r.hash = (hash_word env n).2)) with
          | [] => none
          | r :: _ =>
            some (⟨r.peak_tf, r.peak_df, r.sum_tf, r.sum_df⟩ : FrequencyData)) =
          (df.find? (fun r => decide (r.hash = (hash_word env n).2))).map rowToFreq by
      exact h
    rw [find_eq_filter_head]
    rcases hf : df.filter (fun r => decide (r.hash = (hash_word env n).2)) with _ | ⟨r, t⟩ <;>
      rw [hf] <;> rfl

lemma matchDict_skip (s : String) (m : List Row) (a : Option Row)
    (h : ∀ r ∈ m, ¬ r.hash = s) :
    m.foldl (fun acc r => if r.hash = s then some r else acc) a = a := by
  induction m generalizing a with
  | nil => rfl
  | cons r t ih =>
    rw [List.foldl_cons, if_neg (h r (List.mem_cons_self r t))]
    exact ih a (fun q hq => h q (List.mem_cons_of_mem r hq))

lemma matchDict_filter (df : List Row) (s : String) (pred : Row → Bool)
    (hnd : (df.map Row.hash).Nodup)
    (hpred : ∀ r, r.hash = s → pred r = true) :
    matchDict (df.filter pred) s = df.find? (fun r => decide (r.hash = s)) := by
  induction df with
  | nil => rfl
  | cons r t ih =>
    rw [List.map_cons, List.nodup_cons] at hnd
    obtain ⟨hnotin, hnd2⟩ := hnd
    by_cases hr : r.hash = s
    · rw [List.filter_cons_of_pos (hpred r hr)]
      unfold matchDict
      rw [List.foldl_cons, if_pos hr]
      have hskip : ∀ q ∈ t.filter pred, ¬ q.hash = s := by
        intro q hq hqs
        have hm : q.hash ∈ t.map Row.hash :=
          List.mem_map_of_mem Row.hash (List.mem_of_mem_filter hq)
        rw [hqs, ← hr] at hm
        exact hnotin hm
      rw [matchDict_skip s _ _ hskip, List.find?_cons_of_pos _ (by simp [hr])]
    · by_cases hp : pred r = true
      · rw [List.filter_cons_of_pos hp]
        unfold matchDict
        rw [List.foldl_cons, if_neg hr, List.find?_cons_of_neg _ (by simp [hr])]
        exact ih hnd2
      · rw [List.filter_cons_of_neg (by simpa using hp),
          List.find?_cons_of_neg _ (by simp [hr])]
        exact ih hnd2

/-- Well-formedness of one grouped entry of batch_frequency relative to one
group: the stored suffix is the word's hash suffix, the word's bucket is
the group's loaded table, and the stored suffix is among the group's
collected suffixes. -/
def WfEntry (env : Env) (df : List Row) (sAll : List String)
    (e : String × String × String) : Prop :=
  e.2.2 = (hash_word env (env.normalize e.1)).2 ∧
  env.buckets (hash_word env (env.normalize e.1)).1 = some df ∧
  e.2.2 ∈ sAll

lemma entry_value (env : Env) (df : List Row) (sAll : List String)
    (hnd : (df.map Row.hash).Nodup)
    (e : String × String × String) (hwf : WfEntry env df sAll e) :
    (matchDict (df.filter (fun r => decide (r.hash ∈ sAll))) e.2.2).map rowToFreq =
      directVal env (env.normalize e.1) := by
  obtain ⟨h1, h2, h3⟩ := hwf
  rw [matchDict_filter df e.2.2 _ hnd (fun r hr => by simp [hr ▸ h3])]
  unfold directVal
  rw [h2, ← h1]

lemma processEntries_spec (env : Env) (df : List Row) (sAll : List String)
    (hnd : (df.map Row.hash).Nodup) :
    ∀ (entries : List (String × String × String)),
      (∀ e ∈ entries, WfEntry env df sAll e) →
      ∀ acc : (String → Option (Option FrequencyData)) × List String,
      (∀ x, ((∃ e ∈ entries, e.1 = x) →
          (processEntries (df.filter (fun r => decide (r.hash ∈ sAll))) entries acc).1 x =
            some (directVal env (env.normalize x))) ∧
        ((∀ e ∈ entries, ¬ e.1 = x) →
          (processEntries (df.filter (fun r => decide (r.hash ∈ sAll))) entries acc).1 x =
            acc.1 x)) ∧
      (processEntries (df.filter (fun r => decide (r.hash ∈ sAll))) entries acc).2 =
        acc.2 ++ (entries.map (fun e => e.1)).filter
          (fun x => decide (directVal env (env.normalize x) = none)) := by
  intro entries
  induction entries with
  | nil =>
    intro _ acc
    refine ⟨fun x => ⟨?_, fun _ => rfl⟩, by simp [processEntries]⟩
    rintro ⟨e, he, _⟩
    exact absurd he (List.not_mem_nil e)
  | cons e rest ih =>
    intro hwf acc
    have hwfe := hwf e (List.mem_cons_self e rest)
    have hwfr : ∀ q ∈ rest, WfEntry env df sAll q :=
      fun q hq => hwf q (List.mem_cons_of_mem e hq)
    have hev := entry_value env df sAll hnd e hwfe
    rcases hmd : matchDict (df.filter (fun r => decide (r.hash ∈ sAll))) e.2.2 with _ | row
    · have hdv : directVal env (env.normalize e.1) = none := by
        rw [hmd] at hev
        simpa using hev.symm
      have hstep : processEntries (df.filter (fun r => decide (r.hash ∈ sAll)))
          (e :: rest) acc =
          processEntries (df.filter (fun r => decide (r.hash ∈ sAll))) rest
            (dictInsert acc.1 e.1 none, acc.2 ++ [e.1]) := by
        simp only [processEntries]
        rw [hmd]
      obtain ⟨ihres, ihfb⟩ := ih hwfr (dictInsert acc.1 e.1 none, acc.2 ++ [e.1])
      constructor
      · intro x
        constructor
        · rintro ⟨q, hq, hqx⟩
          rcases List.mem_cons.mp hq with hq1 | hq2
          · by_cases hrx : ∃ q ∈ rest, q.1 = x
            · rw [hstep]
              exact (ihres x).1 hrx
            · rw [hstep, (ihres x).2 (fun q hq hqx2 => hrx ⟨q, hq, hqx2⟩)]
              have hex : e.1 = x := by rw [← hq1]; exact hqx
              simp only [dictInsert]
              rw [if_pos hex.symm, ← hex, hdv]
          · rw [hstep]
            exact (ihres x).1 ⟨q, hq2, hqx⟩
        · intro hnone
          have hne : ¬ e.1 = x := hnone e (List.mem_cons_self e rest)
          rw [hstep, (ihres x).2 (fun q hq => hnone q (List.mem_cons_of_mem e hq))]
          simp only [dictInsert]
          rw [if_neg (fun hx => hne (hx.symm))]
      · rw [hstep, ihfb]
        simp only [List.map_cons, List.filter_cons, hdv]
        simp [List.append_assoc]
    · have hdv : directVal env (env.normalize e.1) = some (rowToFreq row) := by
        rw [hmd] at hev
        simpa using hev.symm
      have hstep : processEntries (df.filter (fun r => decide (r.hash ∈ sAll)))
          (e :: rest) acc =
          processEntries (df.filter (fun r => decide (r.hash ∈ sAll))) rest
            (dictInsert acc.1 e.1 (some (rowToFreq row)), acc.2) := by
        simp only [processEntries]
        rw [hmd]
      obtain ⟨ihres, ihfb⟩ := ih hwfr (dictInsert acc.1 e.1 (some (rowToFreq row)), acc.2)
      constructor
      · intro x
        constructor
        · rintro ⟨q, hq, hqx⟩
          rcases List.mem_cons.mp hq with hq1 | hq2
          · by_cases hrx : ∃ q ∈ rest, q.1 = x
            · rw [hstep]
              exact (ihres x).1 hrx
            · rw [hstep, (ihres x).2 (fun q hq hqx2 => hrx ⟨q, hq, hqx2⟩)]
              have hex : e.1 = x := by rw [← hq1]; exact hqx
              simp only [dictInsert]
              rw [if_pos hex.symm, ← hex, hdv]
          · rw [hstep]
            exact (ihres x).1 ⟨q, hq2, hqx⟩
        · intro hnone
          have hne : ¬ e.1 = x := hnone e (List.mem_cons_self e rest)
          rw [hstep, (ihres x).2 (fun q hq => hnone q (List.mem_cons_of_mem e hq))]
          simp only [dictInsert]
          rw [if_neg (fun hx => hne (hx.symm))]
      · rw [hstep, ihfb]
        simp only [List.map_cons, List.filter_cons, hdv]
        simp

lemma directPhase_spec (env : Env)
    (hnd : ∀ pfx df, env.buckets pfx = some df → (df.map Row.hash).Nodup) :
    ∀ (groups : List (String × List (String × String × String))),
      (∀ g ∈ groups, ∀ e ∈ g.2,
        e.2.2 = (hash_word env (env.normalize e.1)).2 ∧
        g.1 = (hash_word env (env.normalize e.1)).1) →
      (∀ g ∈ groups, ¬ env.buckets g.1 = none) →
      ∀ acc : (String → Option (Option FrequencyData)) × List String,
      ∃ res fb, directPhase env groups acc = .ok (res, fb) ∧
        (∀ x, ((∃ g ∈ groups, ∃ e ∈ g.2, e.1 = x) →
            res x = some (directVal env (env.normalize x))) ∧
          ((∀ g ∈ groups, ∀ e ∈ g.2, ¬ e.1 = x) → res x = acc.1 x)) ∧
        (∀ x, x ∈ fb ↔ (x ∈ acc.2 ∨
          ((∃ g ∈ groups, ∃ e ∈ g.2, e.1 = x) ∧
            directVal env (env.normalize x) = none))) := by
  intro groups
  induction groups with
  | nil =>
    intro _ _ acc
    refine ⟨acc.1, acc.2, rfl, fun x => ⟨?_, fun _ => rfl⟩, fun x => by simp⟩
    rintro ⟨g, hg, _⟩
    exact absurd hg (List.not_mem_nil g)
  | cons g0 rest ih =>
    obtain ⟨p, es⟩ := g0
    intro hwf hbk acc
    have hbkp := hbk (p, es) (List.mem_cons_self _ _)
    rcases hb : env.buckets p with _ | df
    · exact absurd hb hbkp
    · have hwfes := hwf (p, es) (List.mem_cons_self _ _)
      have hwfrest : ∀ g ∈ rest, ∀ e ∈ g.2,
          e.2.2 = (hash_word env (env.normalize e.1)).2 ∧
          g.1 = (hash_word env (env.normalize e.1)).1 :=
        fun g hg => hwf g (List.mem_cons_of_mem _ hg)
      have hbkrest : ∀ g ∈ rest, ¬ env.buckets g.1 = none :=
        fun g hg => hbk g (List.mem_cons_of_mem _ hg)
      have hwfE : ∀ e ∈ es, WfEntry env df (es.map (fun e => e.2.2)) e := by
        intro e he
        obtain ⟨h1, h2⟩ := hwfes e he
        refine ⟨h1, ?_, ?_⟩
        · rw [← h2]
          exact hb
        · exact List.mem_map_of_mem _ he
      have hndf := hnd p df hb
      obtain ⟨pe_res, pe_fb⟩ :=
        processEntries_spec env df (es.map (fun e => e.2.2)) hndf es hwfE acc
      obtain ⟨res, fb, heq, hres, hfb⟩ := ih hwfrest hbkrest
        (processEntries (df.filter
          (fun r => decide (r.hash ∈ es.map (fun e => e.2.2)))) es acc)
      refine ⟨res, fb, ?_, ?_, ?_⟩
      · have hstep : directPhase env ((p, es) :: rest) acc =
            directPhase env rest
              (processEntries (df.filter
                (fun r => decide (r.hash ∈ es.map (fun e => e.2.2)))) es acc) := by
          simp only [directPhase]
          rw [hb]
        rw [hstep, heq]
      · intro x
        constructor
        · rintro ⟨g, hg, e, he, hex⟩
          rcases List.mem_cons.mp hg with hg1 | hg2
          · by_cases hrx : ∃ g ∈ rest, ∃ e ∈ g.2, e.1 = x
            · exact (hres x).1 hrx
            · rw [(hres x).2 (fun g hg e he hex2 => hrx ⟨g, hg, e, he, hex2⟩)]
              have hees : e ∈ es := by
                rw [hg1] at he
                exact he
              exact (pe_res x).1 ⟨e, hees, hex⟩
          · exact (hres x).1 ⟨g, hg2, e, he, hex⟩
        · intro hnone
          have hnrest : ∀ g ∈ rest, ∀ e ∈ g.2, ¬ e.1 = x :=
            fun g hg => hnone g (List.mem_cons_of_mem _ hg)
          rw [(hres x).2 hnrest]
          exact (pe_res x).2 (fun e he => hnone (p, es) (List.mem_cons_self _ _) e he)
      · intro x
        rw [hfb x]
        have hmem1 : x ∈ (processEntries (df.filter
            (fun r => decide (r.hash ∈ es.map (fun e => e.2.2)))) es acc).2 ↔
            x ∈ acc.2 ∨ ((∃ e ∈ es, e.1 = x) ∧
              directVal env (env.normalize x) = none) := by
          rw [pe_fb]
          simp only [List.mem_append, List.mem_filter, List.mem_map,
            decide_eq_true_eq]
        rw [hmem1]
        have hcov : (∃ g ∈ (p, es) :: rest, ∃ e ∈ g.2, e.1 = x) ↔
            ((∃ e ∈ es, e.1 = x) ∨ ∃ g ∈ rest, ∃ e ∈ g.2, e.1 = x) := by
          constructor
          · rintro ⟨g, hg, e, he, hex⟩
            rcases List.mem_cons.mp hg with hg1 | hg2
            · refine Or.inl ⟨e, ?_, hex⟩
              rw [hg1] at he
              exact he
            · exact Or.inr ⟨g, hg2, e, he, hex⟩
          · rintro (⟨e, he, hex⟩ | ⟨g, hg, e, he, hex⟩)
            · exact ⟨(p, es), List.mem_cons_self _ _, e, he, hex⟩
            · exact ⟨g, List.mem_cons_of_mem _ hg, e, he, hex⟩
        rw [hcov]
        constructor
        · rintro ((h | ⟨ha, hd⟩) | ⟨hbb, hd⟩)
          · exact Or.inl h
          · exact Or.inr ⟨Or.inl ha, hd⟩
          · exact Or.inr ⟨Or.inr hbb, hd⟩
        · rintro (h | ⟨ha | hbb, hd⟩)
          · exact Or.inl (Or.inl h)
          · exact Or.inl (Or.inr ⟨ha, hd⟩)
          · exact Or.inr ⟨hbb, hd⟩

lemma assocAppend_wf (P : String × String × String → String → Prop)
    (k : String) (e : String × String × String) :
    ∀ (m : List (String × List (String × String × String))),
      (∀ g ∈ m, ∀ x ∈ g.2, P x g.1) → P e k →
      ∀ g ∈ assocAppend m k e, ∀ x ∈ g.2, P x g.1 := by
  intro m
  induction m with
  | nil =>
    intro _ he g hg x hx
    rw [show assocAppend [] k e = [(k, [e])] from rfl, List.mem_singleton] at hg
    subst hg
    rw [List.mem_singleton.mp hx]
    exact he
  | cons g0 t ih =>
    obtain ⟨k₂, es⟩ := g0
    intro hm he g hg x hx
    simp only [assocAppend] at hg
    by_cases hk : k = k₂
    · rw [if_pos hk] at hg
      rcases List.mem_cons.mp hg with h1 | h2
      · subst h1
        rcases List.mem_append.mp hx with hx1 | hx2
        · exact hm (k₂, es) (List.mem_cons_self _ _) x hx1
        · rw [List.mem_singleton.mp hx2, ← hk]
          exact he
      · exact hm _ (List.mem_cons_of_mem _ h2) x hx
    · rw [if_neg hk] at hg
      rcases List.mem_cons.mp hg with h1 | h2
      · subst h1
        exact hm (k₂, es) (List.mem_cons_self _ _) x hx
      · exact ih (fun g hg => hm g (List.mem_cons_of_mem _ hg)) he g h2 x hx

lemma assocAppend_ne (k : String) (e : String × String × String) :
    ∀ (m : List (String × List (String × String × String))),
      (∀ g ∈ m, g.2 ≠ []) → ∀ g ∈ assocAppend m k e, g.2 ≠ [] := by
  intro m
  induction m with
  | nil =>
    intro _ g hg
    rw [show assocAppend [] k e = [(k, [e])] from rfl, List.mem_singleton] at hg
    subst hg
    simp
  | cons g0 t ih =>
    obtain ⟨k₂, es⟩ := g0
    intro hm g hg
    simp only [assocAppend] at hg
    by_cases hk : k = k₂
    · rw [if_pos hk] at hg
      rcases List.mem_cons.mp hg with h1 | h2
      · subst h1
        simp
      · exact hm _ (List.mem_cons_of_mem _ h2)
    · rw [if_neg hk] at hg
      rcases List.mem_cons.mp hg with h1 | h2
      · subst h1
        exact hm (k₂, es) (List.mem_cons_self _ _)
      · exact ih (fun g hg => hm g (List.mem_cons_of_mem _ hg)) g h2

lemma assocAppend_cover_new (k : String) (e : String × String × String) :
    ∀ (m : List (String × List (String × String × String))),
      ∃ g ∈ assocAppend m k e, e ∈ g.2 := by
  intro m
  induction m with
  | nil => exact ⟨(k, [e]), List.mem_singleton.mpr rfl, List.mem_singleton.mpr rfl⟩
  | cons g0 t ih =>
    obtain ⟨k₂, es⟩ := g0
    by_cases hk : k = k₂
    · refine ⟨(k₂, es ++ [e]), ?_, by simp⟩
      simp only [assocAppend]
      rw [if_pos hk]
      exact List.mem_cons_self _ _
    · obtain ⟨g, hg, hge⟩ := ih
      refine ⟨g, ?_, hge⟩
      simp only [assocAppend]
      rw [if_neg hk]
      exact List.mem_cons_of_mem _ hg

lemma assocAppend_cover_mono (k₁ : String) (e₁ x : String × String × String) :
    ∀ (m : List (String × List (String × String × String))),
      (∃ g ∈ m, x ∈ g.2) → ∃ g ∈ assocAppend m k₁ e₁, x ∈ g.2 := by
  intro m
  induction m with
  | nil =>
    rintro ⟨g, hg, _⟩
    exact absurd hg (List.not_mem_nil g)
  | cons g0 t ih =>
    obtain ⟨k₂, es⟩ := g0
    rintro ⟨g, hg, hgx⟩
    rcases List.mem_cons.mp hg with h1 | h2
    · by_cases hk : k₁ = k₂
      · refine ⟨(k₂, es ++ [e₁]), ?_, ?_⟩
        · simp only [assocAppend]
          rw [if_pos hk]
          exact List.mem_cons_self _ _
        · subst h1
          exact List.mem_append.mpr (Or.inl hgx)
      · refine ⟨(k₂, es), ?_, ?_⟩
        · simp only [assocAppend]
          rw [if_neg hk]
          exact List.mem_cons_self _ _
        · subst h1
          exact hgx
    · by_cases hk : k₁ = k₂
      · refine ⟨g, ?_, hgx⟩
        simp only [assocAppend]
        rw [if_pos hk]
        exact List.mem_cons_of_mem _ h2
      · obtain ⟨g2, hg2, hg2x⟩ := ih ⟨g, h2, hgx⟩
        refine ⟨g2, ?_, hg2x⟩
        simp only [assocAppend]
        rw [if_neg hk]
        exact List.mem_cons_of_mem _ hg2

/-- Invariant of one grouped entry: the stored suffix and the group key come
from the word's hash, and the word is among the batch's input words. -/
def WordP (env : Env) (W : List String) (e : String × String × String)
    (k : String) : Prop :=
  e.2.2 = (hash_word env (env.normalize e.1)).2 ∧
  k = (hash_word env (env.normalize e.1)).1 ∧
  e.1 ∈ W

lemma groupWords_wf (env : Env) (W : List String) :
    ∀ (ws : List String) (m : List (String × List (String × String × String))),
      (∀ u ∈ ws, u ∈ W) →
      (∀ g ∈ m, ∀ x ∈ g.2, WordP env W x g.1) →
      ∀ g ∈ groupWords env ws m, ∀ x ∈ g.2, WordP env W x g.1 := by
  intro ws
  induction ws with
  | nil =>
    intro m _ hm
    exact hm
  | cons u rest ih =>
    intro m hWs hm
    exact ih _ (fun q hq => hWs q (List.mem_cons_of_mem _ hq))
      (assocAppend_wf (WordP env W) _ _ m hm
        ⟨rfl, rfl, hWs u (List.mem_cons_self _ _)⟩)

lemma groupWords_ne (env : Env) :
    ∀ (ws : List String) (m : List (String × List (String × String × String))),
      (∀ g ∈ m, g.2 ≠ []) → ∀ g ∈ groupWords env ws m, g.2 ≠ [] := by
  intro ws
  induction ws with
  | nil =>
    intro m hm
    exact hm
  | cons u rest ih =>
    intro m hm
    exact ih _ (assocAppend_ne _ _ m hm)

lemma groupWords_cover (env : Env) :
    ∀ (ws : List String) (m : List (String × List (String × String × String)))
      (w : String),
      (w ∈ ws ∨ ∃ g ∈ m, ∃ x ∈ g.2, x.1 = w) →
      ∃ g ∈ groupWords env ws m, ∃ x ∈ g.2, x.1 = w := by
  intro ws
  induction ws with
  | nil =>
    intro m w h
    rcases h with h | h
    · exact absurd h (List.not_mem_nil w)
    · exact h
  | cons u rest ih =>
    intro m w h
    rcases h with h | ⟨g, hg, x, hx, hxw⟩
    · rcases List.mem_cons.mp h with h1 | h2
      · obtain ⟨g, hg, hge⟩ := assocAppend_cover_new
          (hash_word env (env.normalize u)).1
          (u, env.normalize u, (hash_word env (env.normalize u)).2) m
        exact ih _ w (Or.inr ⟨g, hg, _, hge, h1.symm⟩)
      · exact ih _ w (Or.inl h2)
    · obtain ⟨g2, hg2, hg2x⟩ := assocAppend_cover_mono _ _ x m ⟨g, hg, hx⟩
      exact ih _ w (Or.inr ⟨g2, hg2, x, hg2x, hxw⟩)

lemma fallbackPhase_spec (env : Env) :
    ∀ (fbw : List String) (res : String → Option (Option FrequencyData)) (x : String),
      (x ∈ fbw →
        fallbackPhase env fbw res x =
          (match fallbackValue env x with
           | some v => some v
           | none => res x)) ∧
      (x ∉ fbw → fallbackPhase env fbw res x = res x) := by
  intro fbw
  induction fbw with
  | nil =>
    intro res x
    exact ⟨fun h => absurd h (List.not_mem_nil x), fun _ => rfl⟩
  | cons u rest ih =>
    intro res x
    constructor
    · intro hx
      rcases List.mem_cons.mp hx with h1 | h2
      · subst h1
        rcases hfu : fallbackValue env x with _ | v
        · have hstep : fallbackPhase env (x :: rest) res = fallbackPhase env rest res := by
            simp only [fallbackPhase]
            rw [hfu]
          rw [hstep]
          by_cases h2 : x ∈ rest
          · rw [(ih res x).1 h2, hfu]
          · rw [(ih res x).2 h2]
        · have hstep : fallbackPhase env (x :: rest) res =
              fallbackPhase env rest (dictInsert res x v) := by
            simp only [fallbackPhase]
            rw [hfu]
          rw [hstep]
          by_cases h2 : x ∈ rest
          · rw [(ih _ x).1 h2, hfu]
          · rw [(ih _ x).2 h2]
            simp [dictInsert]
      · rcases hfu : fallbackValue env u with _ | v
        · have hstep : fallbackPhase env (u :: rest) res = fallbackPhase env rest res := by
            simp only [fallbackPhase]
            rw [hfu]
          rw [hstep, (ih res x).1 h2]
        · have hstep : fallbackPhase env (u :: rest) res =
              fallbackPhase env rest (dictInsert res u v) := by
            simp only [fallbackPhase]
            rw [hfu]
          rw [hstep, (ih _ x).1 h2]
          rcases hfx : fallbackValue env x with _ | v2
          · by_cases hux : x = u
            · rw [hux] at hfx
              exact absurd (hfx.symm.trans hfu) (by simp)
            · simp [dictInsert, hux]
          · rfl
    · intro hx
      have hxu : ¬ x = u := fun h => hx (List.mem_cons.mpr (Or.inl h))
      have hxr : x ∉ rest := fun h => hx (List.mem_cons_of_mem _ h)
      rcases hfu : fallbackValue env u with _ | v
      · have hstep : fallbackPhase env (u :: rest) res = fallbackPhase env rest res := by
          simp only [fallbackPhase]
          rw [hfu]
        rw [hstep, (ih res x).2 hxr]
      · have hstep : fallbackPhase env (u :: rest) res =
            fallbackPhase env rest (dictInsert res u v) := by
          simp only [fallbackPhase]
          rw [hfu]
        rw [hstep, (ih _ x).2 hxr]
        simp [dictInsert, hxu]

lemma freqValue_fallback (env : Env) (w : String)
    (hd : lookup_frequency env (env.normalize w) = none) :
    freqValue env (env.normalize w) =
      (match fallbackValue env w with
       | some v => v
       | none => none) := by
  unfold freqValue fallbackValue fallbackHyphen
  rcases h2 : split_contraction (env.normalize w) with _ | ⟨stem, tok⟩
  · rcases h3 : split_hyphenated (env.normalize w) with _ | parts
    · simp [hd, h2, h3]
    · by_cases h4 : parts.all (fun p => (lookup_frequency env p).isSome) = true
      · simp [hd, h2, h3, h4]
      · simp [hd, h2, h3, h4]
  · rcases h5 : lookup_frequency env stem with _ | r
    · rcases h3 : split_hyphenated (env.normalize w) with _ | parts
      · simp [hd, h2, h3, h5]
      · by_cases h4 : parts.all (fun p => (lookup_frequency env p).isSome) = true
        · simp [hd, h2, h3, h4, h5]
        · simp [hd, h2, h3, h4, h5]
    · simp [hd, h2, h5]

/-- C1 counterexample: with the corpus installed but the single word's
bucket file missing on storage, frequency returns the absence value while
batch_frequency raises, so the batch result does not map the word to what
frequency returns. -/
theorem batch_single_equivalence_cex :
    batch_frequency envNoBuckets ["hello"] = .error (.fileNotFound "XX") ∧
    frequency envNoBuckets "hello" = .ok none ∧
    batchLookup envNoBuckets ["hello"] "hello" ≠
      okValue (frequency envNoBuckets "hello") := by
  refine ⟨rfl, rfl, ?_⟩
  decide

/-- C1 amended: with the corpus installed, batch_frequency agrees with
frequency on every word of the list provided the shard file of every
queried word is present, every shard's hash column is duplicate-free, and
no word normalizes to the empty string. Each of the three side conditions
closes a real divergence of the source: an unguarded direct-phase bucket
load, the last-row-wins match dict versus frequency's first-row filter, and
the empty-word guard present only in the single-word path. -/
theorem batch_single_equivalence_amended (env : Env) (words : List String)
    (hinst : env.dataInstalled = true)
    (hbk : ∀ w ∈ words, ¬ env.buckets (hash_word env (env.normalize w)).1 = none)
    (hnd : ∀ pfx df, env.buckets pfx = some df → (df.map Row.hash).Nodup)
    (hne : ∀ w ∈ words, ¬ env.normalize w = "") :
    ∀ w ∈ words, batchLookup env words w = okValue (frequency env w) := by
  have hwf0 : ∀ g ∈ groupMap env words, ∀ x ∈ g.2, WordP env words x g.1 :=
    groupWords_wf env words words [] (fun u hu => hu)
      (fun g hg => absurd hg (List.not_mem_nil g))
  have hne0 : ∀ g ∈ groupMap env words, g.2 ≠ [] :=
    groupWords_ne env words [] (fun g hg => absurd hg (List.not_mem_nil g))
  have hwf1 : ∀ g ∈ groupMap env words, ∀ e ∈ g.2,
      e.2.2 = (hash_word env (env.normalize e.1)).2 ∧
      g.1 = (hash_word env (env.normalize e.1)).1 :=
    fun g hg e he => ⟨(hwf0 g hg e he).1, (hwf0 g hg e he).2.1⟩
  have hbk1 : ∀ g ∈ groupMap env words, ¬ env.buckets g.1 = none := by
    intro g hg hnone
    obtain ⟨e, he⟩ := List.exists_mem_of_ne_nil g.2 (hne0 g hg)
    obtain ⟨_, hkey, hmem⟩ := hwf0 g hg e he
    rw [hkey] at hnone
    exact hbk e.1 hmem hnone
  obtain ⟨res, fb, heq, hres, hfb⟩ :=
    directPhase_spec env hnd (groupMap env words) hwf1 hbk1 (fun _ => none, [])
  intro w hw
  have hcov : ∃ g ∈ groupMap env words, ∃ x ∈ g.2, x.1 = w :=
    groupWords_cover env words [] w (Or.inl hw)
  have hval : res w = some (directVal env (env.normalize w)) := (hres w).1 hcov
  have hfbw := hfb w
  have hbatch : batch_frequency env words = .ok (fallbackPhase env fb res) := by
    unfold batch_frequency
    rw [if_neg (by simp [hinst]), heq]
  have hlf : lookup_frequency env (env.normalize w) = directVal env (env.normalize w) :=
    lookup_frequency_eq_directVal env (env.normalize w) (hne w hw)
  rcases hdv : directVal env (env.normalize w) with _ | r
  · have hwfb : w ∈ fb := hfbw.mpr (Or.inr ⟨hcov, hdv⟩)
    unfold batchLookup
    rw [hbatch]
    show fallbackPhase env fb res w = okValue (frequency env w)
    rw [(fallbackPhase_spec env fb res w).1 hwfb, frequency_ok env w hinst]
    have hlfn : lookup_frequency env (env.normalize w) = none := by
      rw [hlf, hdv]
    have hfv := freqValue_fallback env w hlfn
    rcases hfw : fallbackValue env w with _ | v
    · rw [hfw] at hfv
      rw [hval, hdv, hfv]
      rfl
    · rw [hfw] at hfv
      rw [hfv]
      rfl
  · have hwnfb : w ∉ fb := by
      intro hin
      rcases hfbw.mp hin with h0 | ⟨_, hnone⟩
      · exact absurd h0 (List.not_mem_nil w)
      · rw [hdv] at hnone
        exact Option.noConfusion hnone
    unfold batchLookup
    rw [hbatch]
    show fallbackPhase env fb res w = okValue (frequency env w)
    rw [(fallbackPhase_spec env fb res w).2 hwnfb, hval, hdv,
      frequency_ok env w hinst]
    have hfq : freqValue env (env.normalize w) = some r := by
      unfold freqValue
      rw [show lookup_frequency env (env.normalize w) = some r from by rw [hlf, hdv]]
    rw [hfq]
    rfl

theorem batch_single_equivalence_witness :
    batchLookup testEnv ["ship", wordDont, "quarter-deck"] wordDont =
      okValue (frequency testEnv wordDont) := by
  have hbk : ∀ w ∈ (["ship", wordDont, "quarter-deck"] : List String),
      ¬ testEnv.buckets (hash_word testEnv (testEnv.normalize w)).1 = none := by
    decide
  have hnd : ∀ pfx df, testEnv.buckets pfx = some df → (df.map Row.hash).Nodup := by
    intro pfx df h
    by_cases hp : pfx = "XX"
    · have h2 : testEnv.buckets pfx = some testRows := by
        rw [show testEnv.buckets pfx =
          (if pfx = "XX" then some testRows else none) from rfl, if_pos hp]
      rw [h2] at h
      injection h with h
      subst h
      decide
    · have h2 : testEnv.buckets pfx = none := by
        rw [show testEnv.buckets pfx =
          (if pfx = "XX" then some testRows else none) from rfl, if_neg hp]
      rw [h2] at h
      exact Option.noConfusion h
  have hne : ∀ w ∈ (["ship", wordDont, "quarter-deck"] : List String),
      ¬ testEnv.normalize w = "" := by decide
  exact batch_single_equivalence_amended testEnv _ rfl hbk hnd hne wordDont (by decide)

end GngramCounter
